import Mathlib

/-!
Verification of the text-miner corpus module (src/lib/corpus.js).

The JavaScript code manipulates dynamically typed values: documents are
duck-typed objects (any object carrying both a `text` and an `attributes`
key counts as a Document), and the validators from the validate.io family
inspect the runtime shape of arguments.  We therefore embed a small
universe `JsVal` of JavaScript values and translate each function of
corpus.js into a Lean function over it.  Mutation of `this` is modelled by
explicit state passing: a method that mutates the receiver returns the new
receiver state; `map`, whose body mutates the receiver's document objects
through aliasing, returns the pair (new receiver state, returned corpus).
A JavaScript function body without a `return` statement returns
`undefined`; we record the returned value of the mutator methods with
`JsRet` so that chainability is visible in the model.
-/

/-- A JavaScript value, restricted to the shapes corpus.js manipulates:
strings, numbers, booleans, `undefined`, plain objects (ordered key/value
fields, unique keys in any state produced by real JS code) and arrays. -/
inductive JsVal where
  | str (s : String)
  | num (n : Int)
  | bool (b : Bool)
  | undefinedVal
  | obj (fields : List (String × JsVal))
  | arr (elems : List JsVal)
deriving Repr

/-- Field lookup in an object's field list (first occurrence wins). -/
def getFieldList (k : String) : List (String × JsVal) → Option JsVal
  | [] => none
  | p :: rest => if p.1 = k then some p.2 else getFieldList k rest

/-- `o.k` as JavaScript evaluates it: the field's value, or `undefined`
when `o` is not an object or lacks the field. -/
def getFieldD (o : JsVal) (k : String) : JsVal :=
  match o with
  | .obj fields => (getFieldList k fields).getD .undefinedVal
  | _ => .undefinedVal

/-- `hasOwnProperty`: does the object carry field `k`? -/
def hasField (o : JsVal) (k : String) : Bool :=
  match o with
  | .obj fields => (getFieldList k fields).isSome
  | _ => false

/-- Field update in a field list: overwrite the (first) binding of `k`,
or append a fresh binding when `k` is absent. -/
def setFieldList (k : String) (v : JsVal) : List (String × JsVal) → List (String × JsVal)
  | [] => [(k, v)]
  | p :: rest => if p.1 = k then (k, v) :: rest else p :: setFieldList k v rest

/-- `o.k = v` as JavaScript evaluates it on an object; on a non-object
primitive the assignment is lost, which never happens in the reachable
states of corpus.js. -/
def setField (o : JsVal) (k : String) (v : JsVal) : JsVal :=
  match o with
  | .obj fields => .obj (setFieldList k v fields)
  | other => other

/-!  ## The validate.io validators imported by corpus.js

corpus.js validates arguments with external validate.io predicates
(string primitives, plain objects, arrays, and homogeneous arrays
thereof).  They are shape tests on runtime values.  -/

/-- validate.io-string-primitive: is the value a primitive string? -/
def isString : JsVal → Bool
  | .str _ => true
  | _ => false

/-- validate.io-object: is the value a plain (non-array) object? -/
def isObject : JsVal → Bool
  | .obj _ => true
  | _ => false

/-- validate.io-array-like, restricted to genuine arrays (the only
array-like values corpus.js is ever handed). -/
def isArray : JsVal → Bool
  | .arr _ => true
  | _ => false

/-- validate.io-string-array: an array all of whose elements are strings. -/
def isStringArray : JsVal → Bool
  | .arr l => l.all isString
  | _ => false

/-- validate.io-object-array: an array all of whose elements are plain
objects. -/
def isObjectArray : JsVal → Bool
  | .arr l => l.all isObject
  | _ => false

/-- corpus.js `isDoc`: duck-typed Document test — a plain object carrying
both a `text` and an `attributes` key (the values are not inspected). -/
def isDoc (val : JsVal) : Bool :=
  isObject val && hasField val "text" && hasField val "attributes"

/-- corpus.js `isDocArray`: an array all of whose elements pass `isDoc`. -/
def isDocArray (val : JsVal) : Bool :=
  match val with
  | .arr l => l.all isDoc
  | _ => false

/-- JavaScript truthiness, for the values of our universe. -/
def truthy : JsVal → Bool
  | .str s => !(s = "")
  | .num n => !(n = 0)
  | .bool b => b
  | .undefinedVal => false
  | .obj _ => true
  | .arr _ => true

/-!  ## Errors, return values, Document, Corpus -/

/-- The error taxonomy of the module: `TypeError` for a wrongly shaped
argument and the length-mismatch `Error` of `setAttributes`. -/
inductive TMError where
  | invalidArgument
  | lengthMismatch
deriving Repr, DecidableEq

/-- The value a mutator method hands back to its caller: `undefined`
(function body without a `return`) or the receiver itself (`return self`). -/
inductive JsRet where
  | undefined
  | self
deriving Repr, DecidableEq

/-- Modelled from the spec: src/lib/document.js is absent from src/.  Per
the spec, a Document pairs a `text` string with an `attributes` mapping
that defaults to the empty mapping when not supplied, so `new Doc( s )`
builds the object `{ text: s, attributes: {} }`. -/
def docNew (s : String) : JsVal :=
  .obj [("text", .str s), ("attributes", .obj [])]

/-- A Corpus state: its ordered `documents` array.  `nDocs` is the derived
length of this list. -/
structure Corpus where
  documents : List JsVal
deriving Repr

/-- `nDocs`: derived, read-only view, always the current length of
`documents`. -/
def Corpus.nDocs (c : Corpus) : Nat := c.documents.length

/-- The string payload of a string value (only used under an `isString`
guard, mirroring code paths that JavaScript only reaches with strings). -/
def strVal : JsVal → String
  | .str s => s
  | _ => ""

/-- corpus.js `init`: `docs` omitted gives the empty collection, a string
gives one wrapped Document, a string array gives one Document per string
in order, anything else throws a `TypeError`. -/
def corpusInit (docs : Option JsVal) : Except TMError Corpus :=
  match docs with
  | none => .ok { documents := [] }
  | some v =>
    if isString v then .ok { documents := [docNew (strVal v)] }
    else if isStringArray v then
      match v with
      | .arr l => .ok { documents := l.map (fun e => docNew (strVal e)) }
      | _ => .error .invalidArgument
    else .error .invalidArgument

/-- corpus.js `addDoc`: push a wrapped string or a duck-typed Document,
otherwise throw.  The function body has no `return` statement, so the
method's value is `undefined`. -/
def Corpus.addDoc (c : Corpus) (doc : JsVal) : Except TMError (Corpus × JsRet) :=
  if isString doc then
    .ok ({ documents := c.documents ++ [docNew (strVal doc)] }, .undefined)
  else if isDoc doc then
    .ok ({ documents := c.documents ++ [doc] }, .undefined)
  else
    .error .invalidArgument

/-- corpus.js `setAttributes`: validate that the argument is an object
array, then that its length equals `nDocs`; only then overwrite each
document's `attributes` positionally, and `return self`. -/
def Corpus.setAttributes (c : Corpus) (arr : JsVal) : Except TMError (Corpus × JsRet) :=
  if isObjectArray arr then
    match arr with
    | .arr l =>
      if l.length = c.nDocs then
        .ok ({ documents := List.zipWith (fun d a => setField d "attributes" a) c.documents l }, .self)
      else .error .lengthMismatch
    | _ => .error .invalidArgument
  else .error .invalidArgument

/-- corpus.js `addDocs`: concatenate wrapped strings or duck-typed
Documents, otherwise throw; no `return` statement, so the method's value
is `undefined`. -/
def Corpus.addDocs (c : Corpus) (docs : JsVal) : Except TMError (Corpus × JsRet) :=
  if isStringArray docs then
    match docs with
    | .arr l => .ok ({ documents := c.documents ++ l.map (fun e => docNew (strVal e)) }, .undefined)
    | _ => .error .invalidArgument
  else if isDocArray docs then
    match docs with
    | .arr l => .ok ({ documents := c.documents ++ l }, .undefined)
    | _ => .error .invalidArgument
  else
    .error .invalidArgument

/-!  ## The `apply` primitive and the built-in normalizations -/

/-- Loop body of `apply`: walk the documents in index order, overwriting
each document's `text` with `FUN( doc.text, doc.attributes, i )`. -/
def applyGo (f : JsVal → JsVal → Nat → JsVal) : Nat → List JsVal → List JsVal
  | _, [] => []
  | i, d :: rest =>
    setField d "text" (f (getFieldD d "text") (getFieldD d "attributes") i)
      :: applyGo f (i + 1) rest

/-- corpus.js `apply`: in-place bulk text overwrite; `return self`. -/
def Corpus.apply (c : Corpus) (f : JsVal → JsVal → Nat → JsVal) : Corpus :=
  { documents := applyGo f 0 c.documents }

/-- Lift a string transformation to a JsVal text payload.  On the string
texts of every reachable corpus this is exactly the underlying
JavaScript string method. -/
def strMap (f : String → String) : JsVal → JsVal
  | .str s => .str (f s)
  | v => v

/-- Whitespace of the JavaScript `\s` class, restricted to its ASCII part
(the only characters the corpus texts of this development use). -/
def jsIsSpace (c : Char) : Bool :=
  c = ' ' || c = '\t' || c = '\n' || c = '\r' || c = '\x0b' || c = '\x0c'

/-- Split a character list at whitespace, dropping empty chunks; the
accumulator carries the current chunk reversed. -/
def splitWsGo : List Char → List Char → List (List Char)
  | [], acc => if acc.isEmpty then [] else [acc.reverse]
  | c :: rest, acc =>
    if jsIsSpace c then
      if acc.isEmpty then splitWsGo rest [] else acc.reverse :: splitWsGo rest []
    else splitWsGo rest (c :: acc)

/-- Modelled from the spec: the external whitespace-clean primitive
(underscore.string's `_.clean`) is not part of this repository; per the
spec it collapses runs of whitespace to single spaces and trims. -/
def cleanStr (s : String) : String :=
  String.mk (List.intercalate [' '] (splitWsGo s.toList []))

/-- Modelled from the spec: the external trim primitive (underscore.string's
`_.trim`) removes leading and trailing whitespace only. -/
def trimStr (s : String) : String :=
  String.mk ((s.toList.dropWhile jsIsSpace).reverse.dropWhile jsIsSpace).reverse

/-- corpus.js `clean`: strip extra whitespace from every document via
`apply` and the external clean primitive; `return self`. -/
def Corpus.clean (c : Corpus) : Corpus :=
  c.apply (fun text _ _ => strMap cleanStr text)

/-- corpus.js `trim`; `return self`. -/
def Corpus.trim (c : Corpus) : Corpus :=
  c.apply (fun text _ _ => strMap trimStr text)

/-- corpus.js `toLower`; `return self`. -/
def Corpus.toLower (c : Corpus) : Corpus :=
  c.apply (fun text _ _ => strMap String.toLower text)

/-- corpus.js `toUpper`; `return self`. -/
def Corpus.toUpper (c : Corpus) : Corpus :=
  c.apply (fun text _ _ => strMap String.toUpper text)

/-- corpus.js `stem`: apply an external stemmer to every text, choosing the
Lancaster stemmer when `type === 'Lancaster'` and the Porter stemmer
otherwise; the stemmers themselves (the `natural` package) are external
collaborators and enter the model as function parameters; `return self`. -/
def Corpus.stem (c : Corpus) (lancasterStem porterStem : String → String)
    (type : Option String) : Corpus :=
  c.apply (fun text _ _ =>
    if type = some "Lancaster" then strMap lancasterStem text
    else strMap porterStem text)

/-!  ## `map` and `filter` -/

/-- Loop body of `map`.  The source reuses the receiver's document object:
`doc.text = FUN(...)` mutates the document held by the receiver, and the
very same (now mutated) object is then `addDoc`ed to the fresh corpus.
The loop therefore yields both the receiver's mutated document list and
the accumulated new corpus. -/
def mapGo (f : JsVal → JsVal → Nat → JsVal) :
    List JsVal → Nat → Corpus → Except TMError (List JsVal × Corpus)
  | [], _, ret => .ok ([], ret)
  | d :: rest, i, ret =>
    let d' := setField d "text" (f (getFieldD d "text") (getFieldD d "attributes") i)
    match ret.addDoc d' with
    | .error e => .error e
    | .ok (ret', _) =>
      match mapGo f rest (i + 1) ret' with
      | .error e => .error e
      | .ok (rest', retF) => .ok (d' :: rest', retF)

/-- corpus.js `map`: returns the pair (receiver state after the call,
returned fresh Corpus).  The receiver state changes because the loop
mutates the shared document objects in place. -/
def Corpus.map (c : Corpus) (f : JsVal → JsVal → Nat → JsVal) :
    Except TMError (Corpus × Corpus) :=
  match mapGo f c.documents 0 { documents := [] } with
  | .error e => .error e
  | .ok (ds, ret) => .ok ({ documents := ds }, ret)

/-- Loop body of `filter`: `addDoc` the same document reference to the
fresh corpus whenever `FUN( text, attributes, i )` is truthy. -/
def filterGo (f : JsVal → JsVal → Nat → JsVal) :
    List JsVal → Nat → Corpus → Except TMError Corpus
  | [], _, ret => .ok ret
  | d :: rest, i, ret =>
    if truthy (f (getFieldD d "text") (getFieldD d "attributes") i) then
      match ret.addDoc d with
      | .error e => .error e
      | .ok (ret', _) => filterGo f rest (i + 1) ret'
    else filterGo f rest (i + 1) ret

/-- corpus.js `filter`: the body only reads the receiver, so the receiver
state passes through unchanged next to the returned fresh Corpus. -/
def Corpus.filter (c : Corpus) (f : JsVal → JsVal → Nat → JsVal) :
    Except TMError (Corpus × Corpus) :=
  match filterGo f c.documents 0 { documents := [] } with
  | .error e => .error e
  | .ok ret => .ok (c, ret)

/-!  ## `removeWords` and the remaining removals

`removeWords` builds `new RegExp( "\\b" + word + "\\b", flags )` and
replaces every match with the empty string.  For the metacharacter-free
words the module is meant for, that regex matches exactly the occurrences
of the word delimited by JavaScript word boundaries ( a position whose two
neighbours differ in `\w`-membership, the ends of the string counting as
non-word ).  We embed that matcher directly: a left-to-right scan over the
original characters that deletes each non-overlapping boundary-delimited
occurrence, case-insensitively under the `gi` flags.  -/

/-- The JavaScript `\w` class: ASCII letters, digits and underscore. -/
def isWordChar (c : Char) : Bool :=
  c.isAlpha || c.isDigit || c = '_'

/-- Character comparison under the regex `i` flag (ASCII case folding). -/
def charEqCI (ci : Bool) (a b : Char) : Bool :=
  if ci then a.toLower = b.toLower else a = b

/-- Is `w` a prefix of `l`, compared with `charEqCI ci`? -/
def isPrefixCI (ci : Bool) : List Char → List Char → Bool
  | [], _ => true
  | _ :: _, [] => false
  | a :: as, b :: bs => charEqCI ci a b && isPrefixCI ci as bs

/-- A `\b` word boundary between two neighbouring positions, `none`
standing for an end of the string. -/
def boundary (a b : Option Char) : Bool :=
  (match a with | none => false | some c => isWordChar c)
    != (match b with | none => false | some c => isWordChar c)

/-- Does the word `w` match at the head of `l`, with `prev` the character
just before this position, under both `\b` anchors? -/
def matchesAt (ci : Bool) (w : List Char) (prev : Option Char) (l : List Char) : Bool :=
  isPrefixCI ci w l
    && boundary prev l.head?
    && boundary (l.take w.length).getLast? (l.drop w.length).head?

/-- The global-replace scan, with fuel; at each position it deletes a
boundary-delimited match of `w` and resumes after it, or keeps the
character.  Fuel at least the length of the text makes the fuel bound
unreachable (each step consumes at least one character). -/
def scanRemove (ci : Bool) (w : List Char) : Nat → Option Char → List Char → List Char
  | _, _, [] => []
  | 0, _, l => l
  | fuel + 1, prev, c :: rest =>
    if !(w = []) && matchesAt ci w prev (c :: rest) then
      scanRemove ci w fuel ((List.take w.length (c :: rest)).getLast?)
        (List.drop w.length (c :: rest))
    else
      c :: scanRemove ci w fuel (some c) rest

/-- `text.replace( new RegExp( "\\b" + w + "\\b", flags ), '' )` for a
metacharacter-free word `w`. -/
def removeWordStr (ci : Bool) (text w : String) : String :=
  String.mk (scanRemove ci w.toList text.toList.length none text.toList)

/-- corpus.js `removeWords`: for every document delete every
boundary-delimited occurrence of every listed word (case-insensitively
when the second argument is truthy), then run `clean` on the corpus;
`return self`. -/
def Corpus.removeWords (c : Corpus) (words : List String) (ci : Bool) : Corpus :=
  let c' : Corpus :=
    { documents := c.documents.map (fun d =>
        setField d "text"
          (words.foldl (fun t w => strMap (fun s => removeWordStr ci s w) t)
            (getFieldD d "text"))) }
  c'.clean

/-- The punctuation class of `removeInterpunctuation`: `[\!\?\.,;-]`. -/
def isInterpunctuation (c : Char) : Bool :=
  c = '!' || c = '?' || c = '.' || c = ',' || c = ';' || c = '-'

/-- corpus.js `removeInterpunctuation`: replace each such character with a
single space; `return self`. -/
def Corpus.removeInterpunctuation (c : Corpus) : Corpus :=
  c.apply (fun text _ _ =>
    strMap (fun s => String.mk (s.toList.map (fun ch =>
      if isInterpunctuation ch then ' ' else ch))) text)

/-- `text.replace( /\r?\n|\r/g, ' ' )`: each `\r\n` pair, lone `\r` or
lone `\n` becomes one space. -/
def removeNewlinesChars : List Char → List Char
  | [] => []
  | '\r' :: '\n' :: rest => ' ' :: removeNewlinesChars rest
  | '\r' :: rest => ' ' :: removeNewlinesChars rest
  | '\n' :: rest => ' ' :: removeNewlinesChars rest
  | c :: rest => c :: removeNewlinesChars rest

/-- corpus.js `removeNewlines`; `return self`. -/
def Corpus.removeNewlines (c : Corpus) : Corpus :=
  c.apply (fun text _ _ => strMap (fun s => String.mk (removeNewlinesChars s.toList)) text)

/-- corpus.js `removeDigits`: `text.replace( /\d/g, '' )`; `return self`. -/
def Corpus.removeDigits (c : Corpus) : Corpus :=
  c.apply (fun text _ _ =>
    strMap (fun s => String.mk (s.toList.filter (fun ch => !ch.isDigit))) text)

/-- corpus.js `removeInvalidCharacters`: `text.replace( /�/g, '' )`;
`return self`. -/
def Corpus.removeInvalidCharacters (c : Corpus) : Corpus :=
  c.apply (fun text _ _ =>
    strMap (fun s => String.mk (s.toList.filter (fun ch => !(ch = '�')))) text)

/-!  ## Field algebra -/

theorem getFieldList_setFieldList_same (k : String) (v : JsVal) :
    ∀ fields, getFieldList k (setFieldList k v fields) = some v := by
  intro fields
  induction fields with
  | nil => simp [setFieldList, getFieldList]
  | cons p rest ih =>
    by_cases h : p.1 = k
    · simp [setFieldList, h, getFieldList]
    · simp [setFieldList, h, getFieldList, ih]

theorem getFieldList_setFieldList_ne (k k' : String) (v : JsVal) (hne : k' ≠ k) :
    ∀ fields, getFieldList k' (setFieldList k v fields) = getFieldList k' fields := by
  intro fields
  induction fields with
  | nil => simp [setFieldList, getFieldList, Ne.symm hne]
  | cons p rest ih =>
    by_cases h : p.1 = k
    · have hp : ¬ p.1 = k' := by rw [h]; exact fun hh => hne hh.symm
      simp [setFieldList, h, getFieldList, hne, hp, Ne.symm hne]
    · by_cases h2 : p.1 = k'
      · simp [setFieldList, h, getFieldList, h2, hne]
      · simp [setFieldList, h, getFieldList, h2, ih]

theorem setFieldList_getD_self (k : String) :
    ∀ fields, (getFieldList k fields).isSome = true →
      setFieldList k ((getFieldList k fields).getD .undefinedVal) fields = fields := by
  intro fields
  induction fields with
  | nil => simp [getFieldList]
  | cons p rest ih =>
    intro hsome
    obtain ⟨pk, pv⟩ := p
    by_cases h : pk = k
    · subst h
      simp [getFieldList, setFieldList]
    · simp [getFieldList, h, setFieldList] at hsome ⊢
      exact ih hsome

theorem getFieldList_setFieldList_isSome (k k' : String) (v : JsVal)
    (fields : List (String × JsVal))
    (h : (getFieldList k' fields).isSome = true) :
    (getFieldList k' (setFieldList k v fields)).isSome = true := by
  by_cases hk : k' = k
  · subst hk
    rw [getFieldList_setFieldList_same]
    rfl
  · rw [getFieldList_setFieldList_ne k k' v hk]
    exact h

theorem hasField_setField_of (o : JsVal) (k k' : String) (v : JsVal)
    (h : hasField o k' = true) : hasField (setField o k v) k' = true := by
  cases o with
  | obj fields =>
    simp [hasField] at h
    simpa [setField, hasField] using getFieldList_setFieldList_isSome k k' v fields h
  | str s => simp [hasField] at h
  | num n => simp [hasField] at h
  | bool b => simp [hasField] at h
  | undefinedVal => simp [hasField] at h
  | arr l => simp [hasField] at h

theorem getFieldD_setField_ne (o : JsVal) (k k' : String) (v : JsVal) (hne : k' ≠ k) :
    getFieldD (setField o k v) k' = getFieldD o k' := by
  cases o with
  | obj fields => simp [setField, getFieldD, getFieldList_setFieldList_ne k k' v hne]
  | str s => rfl
  | num n => rfl
  | bool b => rfl
  | undefinedVal => rfl
  | arr l => rfl

theorem getFieldD_setField_same (o : JsVal) (k : String) (v : JsVal)
    (h : isObject o = true) : getFieldD (setField o k v) k = v := by
  cases o with
  | obj fields => simp [setField, getFieldD, getFieldList_setFieldList_same]
  | str s => simp [isObject] at h
  | num n => simp [isObject] at h
  | bool b => simp [isObject] at h
  | undefinedVal => simp [isObject] at h
  | arr l => simp [isObject] at h

theorem setField_getFieldD_self (o : JsVal) (k : String) (h : hasField o k = true) :
    setField o k (getFieldD o k) = o := by
  cases o with
  | obj fields =>
    simp [hasField] at h
    simp [setField, getFieldD, setFieldList_getD_self k fields h]
  | str s => rfl
  | num n => rfl
  | bool b => rfl
  | undefinedVal => rfl
  | arr l => rfl

theorem isDoc_setField (d : JsVal) (k : String) (v : JsVal) (h : isDoc d = true) :
    isDoc (setField d k v) = true := by
  cases d with
  | obj fields =>
    simp [isDoc, isObject, hasField] at h
    simp [isDoc, isObject, hasField, setField]
    exact ⟨getFieldList_setFieldList_isSome k "text" v fields h.1,
           getFieldList_setFieldList_isSome k "attributes" v fields h.2⟩
  | str s => simp [isDoc, isObject] at h
  | num n => simp [isDoc, isObject] at h
  | bool b => simp [isDoc, isObject] at h
  | undefinedVal => simp [isDoc, isObject] at h
  | arr l => simp [isDoc, isObject] at h

theorem isDoc_docNew (s : String) : isDoc (docNew s) = true := by
  simp [docNew, isDoc, isObject, hasField, getFieldList]

theorem isObject_of_isDoc (d : JsVal) (h : isDoc d = true) : isObject d = true := by
  simp [isDoc] at h
  exact h.1.1

/-!  ## Behaviour of the corpus loops -/

theorem addDoc_of_isDoc (c : Corpus) (d : JsVal) (h : isDoc d = true) :
    c.addDoc d = .ok ({ documents := c.documents ++ [d] }, .undefined) := by
  have hs : isString d = false := by
    cases d with
    | obj fields => rfl
    | str s => simp [isDoc, isObject] at h
    | num n => rfl
    | bool b => rfl
    | undefinedVal => rfl
    | arr l => rfl
  simp [Corpus.addDoc, hs, h]

theorem applyGo_length (f : JsVal → JsVal → Nat → JsVal) :
    ∀ (i : Nat) (l : List JsVal), (applyGo f i l).length = l.length := by
  intro i l
  induction l generalizing i with
  | nil => rfl
  | cons d rest ih => simp [applyGo, ih]

theorem applyGo_attrs (f : JsVal → JsVal → Nat → JsVal) :
    ∀ (i : Nat) (l : List JsVal),
      (applyGo f i l).map (fun d => getFieldD d "attributes")
        = l.map (fun d => getFieldD d "attributes") := by
  intro i l
  induction l generalizing i with
  | nil => rfl
  | cons d rest ih =>
    have hne : ("attributes" : String) ≠ "text" := by decide
    simp [applyGo, ih, getFieldD_setField_ne d "text" "attributes" _ hne]

theorem applyGo_shape (f : JsVal → JsVal → Nat → JsVal) :
    ∀ (i : Nat) (l : List JsVal), (∀ d ∈ l, isDoc d = true) →
      ∀ d2 ∈ applyGo f i l, isDoc d2 = true := by
  intro i l
  induction l generalizing i with
  | nil => intro _ d2 hmem; simp [applyGo] at hmem
  | cons d rest ih =>
    intro h d2 hmem
    simp only [applyGo, List.mem_cons] at hmem
    rcases hmem with hmem | hmem
    · subst hmem
      exact isDoc_setField d "text" _ (h d (List.mem_cons_self d rest))
    · exact ih (i + 1) (fun e he => h e (List.mem_cons_of_mem d he)) d2 hmem

theorem applyGo_id :
    ∀ (i : Nat) (l : List JsVal), (∀ d ∈ l, hasField d "text" = true) →
      applyGo (fun t _ _ => t) i l = l := by
  intro i l
  induction l generalizing i with
  | nil => intro _; rfl
  | cons d rest ih =>
    intro h
    simp only [applyGo]
    rw [setField_getFieldD_self d "text" (h d (List.mem_cons_self d rest)),
        ih (i + 1) (fun e he => h e (List.mem_cons_of_mem d he))]

theorem mapGo_ok (f : JsVal → JsVal → Nat → JsVal) :
    ∀ (l : List JsVal) (i : Nat) (acc : List JsVal), (∀ d ∈ l, isDoc d = true) →
      mapGo f l i { documents := acc }
        = .ok (applyGo f i l, { documents := acc ++ applyGo f i l }) := by
  intro l
  induction l with
  | nil => intro i acc _; simp [mapGo, applyGo]
  | cons d rest ih =>
    intro i acc h
    have hd : isDoc d = true := h d (List.mem_cons_self d rest)
    have hd2 : isDoc (setField d "text" (f (getFieldD d "text") (getFieldD d "attributes") i)) = true :=
      isDoc_setField d "text" _ hd
    simp only [mapGo, addDoc_of_isDoc _ _ hd2,
      ih (i + 1) (acc ++ [setField d "text" (f (getFieldD d "text") (getFieldD d "attributes") i)])
        (fun e he => h e (List.mem_cons_of_mem d he)),
      applyGo]
    simp

theorem map_ok (c : Corpus) (f : JsVal → JsVal → Nat → JsVal)
    (h : ∀ d ∈ c.documents, isDoc d = true) :
    c.map f = .ok (c.apply f, c.apply f) := by
  simp [Corpus.map, mapGo_ok f c.documents 0 [] h, Corpus.apply]

/-- Following the spec's description of `filter`: keep exactly the
documents whose predicate value is truthy, preserving their relative
order (the index argument still counts every visited document). -/
def filterSpec (f : JsVal → JsVal → Nat → JsVal) : Nat → List JsVal → List JsVal
  | _, [] => []
  | i, d :: rest =>
    if truthy (f (getFieldD d "text") (getFieldD d "attributes") i) then
      d :: filterSpec f (i + 1) rest
    else filterSpec f (i + 1) rest

theorem filterGo_ok (f : JsVal → JsVal → Nat → JsVal) :
    ∀ (l : List JsVal) (i : Nat) (acc : List JsVal), (∀ d ∈ l, isDoc d = true) →
      filterGo f l i { documents := acc }
        = .ok { documents := acc ++ filterSpec f i l } := by
  intro l
  induction l with
  | nil => intro i acc _; simp [filterGo, filterSpec]
  | cons d rest ih =>
    intro i acc h
    have hd : isDoc d = true := h d (List.mem_cons_self d rest)
    have hrest : ∀ e ∈ rest, isDoc e = true := fun e he => h e (List.mem_cons_of_mem d he)
    by_cases ht : truthy (f (getFieldD d "text") (getFieldD d "attributes") i) = true
    · simp [filterGo, ht, addDoc_of_isDoc _ _ hd, filterSpec, ih (i + 1) (acc ++ [d]) hrest]
    · simp [filterGo, ht, filterSpec, ih (i + 1) acc hrest]

theorem filter_ok (c : Corpus) (f : JsVal → JsVal → Nat → JsVal)
    (h : ∀ d ∈ c.documents, isDoc d = true) :
    c.filter f = .ok (c, { documents := filterSpec f 0 c.documents }) := by
  simp [Corpus.filter, filterGo_ok f c.documents 0 [] h]

theorem zipWith_get (g : JsVal → JsVal → JsVal) :
    ∀ (l1 l2 : List JsVal) (i : Nat) (h1 : i < l1.length) (h2 : i < l2.length)
      (h3 : i < (List.zipWith g l1 l2).length),
      (List.zipWith g l1 l2).get ⟨i, h3⟩ = g (l1.get ⟨i, h1⟩) (l2.get ⟨i, h2⟩) := by
  intro l1
  induction l1 with
  | nil => intro l2 i h1 h2 h3; simp at h1
  | cons a as ih =>
    intro l2 i h1 h2 h3
    cases l2 with
    | nil => simp at h2
    | cons b bs =>
      cases i with
      | zero => rfl
      | succ j =>
        simp only [List.zipWith, List.get]
        exact ih bs j (Nat.lt_of_succ_lt_succ h1) (Nat.lt_of_succ_lt_succ h2)
          (Nat.lt_of_succ_lt_succ (by simpa [List.zipWith] using h3))

theorem map_id_of_mem (g : JsVal → JsVal) :
    ∀ (l : List JsVal), (∀ d ∈ l, g d = d) → l.map g = l := by
  intro l
  induction l with
  | nil => intro _; rfl
  | cons d rest ih =>
    intro h
    simp only [List.map]
    rw [h d (List.mem_cons_self d rest), ih (fun e he => h e (List.mem_cons_of_mem d he))]

theorem zipWith_mem (g : JsVal → JsVal → JsVal) :
    ∀ (l1 l2 : List JsVal) (d : JsVal), d ∈ List.zipWith g l1 l2 →
      ∃ a ∈ l1, ∃ b ∈ l2, d = g a b := by
  intro l1
  induction l1 with
  | nil => intro l2 d hd; simp at hd
  | cons x xs ih =>
    intro l2 d hd
    cases l2 with
    | nil => simp at hd
    | cons y ys =>
      simp only [List.zipWith, List.mem_cons] at hd
      rcases hd with hd | hd
      · exact ⟨x, List.mem_cons_self x xs, y, List.mem_cons_self y ys, hd⟩
      · obtain ⟨a, ha, b, hb, he⟩ := ih ys d hd
        exact ⟨a, List.mem_cons_of_mem x ha, b, List.mem_cons_of_mem y hb, he⟩

/-!  ## Reachable corpus states

`Reach` closes the constructor under every public operation of corpus.js
that produces a corpus state: the receiver after a mutator, and the fresh
corpora handed back by `map` and `filter`.  The built-in normalizations
(`clean`, `trim`, `toLower`, `toUpper`, `stem`, `removeInterpunctuation`,
`removeNewlines`, `removeDigits`, `removeInvalidCharacters`) are, by
definition, `Corpus.apply` at particular callbacks, so the `applyStep`
constructor covers them.  -/

inductive Reach : Corpus → Prop where
  | initStep : ∀ v c, corpusInit v = .ok c → Reach c
  | addDocStep : ∀ c v out, Reach c → Corpus.addDoc c v = .ok out → Reach out.1
  | addDocsStep : ∀ c v out, Reach c → Corpus.addDocs c v = .ok out → Reach out.1
  | setAttributesStep : ∀ c v out, Reach c → Corpus.setAttributes c v = .ok out → Reach out.1
  | applyStep : ∀ c f, Reach c → Reach (Corpus.apply c f)
  | mapReceiverStep : ∀ c f out, Reach c → Corpus.map c f = .ok out → Reach out.1
  | mapResultStep : ∀ c f out, Reach c → Corpus.map c f = .ok out → Reach out.2
  | filterResultStep : ∀ c f out, Reach c → Corpus.filter c f = .ok out → Reach out.2
  | removeWordsStep : ∀ c ws ci, Reach c → Reach (Corpus.removeWords c ws ci)

/-- The Document-shape invariant: every document of every reachable corpus
state passes the duck-typed `isDoc` check. -/
theorem reach_shape : ∀ c, Reach c → ∀ d ∈ c.documents, isDoc d = true := by
  intro c h
  induction h with
  | initStep v c hinit =>
    intro d hd
    cases v with
    | none =>
      simp [corpusInit] at hinit
      subst hinit
      simp at hd
    | some w =>
      by_cases hs : isString w = true
      · simp [corpusInit, hs] at hinit
        subst hinit
        simp at hd
        subst hd
        exact isDoc_docNew _
      · by_cases ha : isStringArray w = true
        · cases w with
          | arr l =>
            simp [corpusInit, hs, ha] at hinit
            subst hinit
            simp at hd
            obtain ⟨e, _, he⟩ := hd
            subst he
            exact isDoc_docNew _
          | str s => simp [isString] at hs
          | num n => simp [isStringArray] at ha
          | bool b => simp [isStringArray] at ha
          | undefinedVal => simp [isStringArray] at ha
          | obj fields => simp [isStringArray] at ha
        · simp [corpusInit, hs, ha] at hinit
  | addDocStep c v out hr hok ih =>
    intro d hd
    by_cases hs : isString v = true
    · simp [Corpus.addDoc, hs] at hok
      subst hok
      simp at hd
      rcases hd with hd | hd
      · exact ih d hd
      · subst hd; exact isDoc_docNew _
    · by_cases hdoc : isDoc v = true
      · simp [Corpus.addDoc, hs, hdoc] at hok
        subst hok
        simp at hd
        rcases hd with hd | hd
        · exact ih d hd
        · subst hd; exact hdoc
      · simp [Corpus.addDoc, hs, hdoc] at hok
  | addDocsStep c v out hr hok ih =>
    intro d hd
    by_cases hs : isStringArray v = true
    · cases v with
      | arr l =>
        simp [Corpus.addDocs, hs] at hok
        subst hok
        simp at hd
        rcases hd with hd | hd
        · exact ih d hd
        · obtain ⟨e, _, he⟩ := hd
          subst he
          exact isDoc_docNew _
      | str s => simp [isStringArray] at hs
      | num n => simp [isStringArray] at hs
      | bool b => simp [isStringArray] at hs
      | undefinedVal => simp [isStringArray] at hs
      | obj fields => simp [isStringArray] at hs
    · by_cases hda : isDocArray v = true
      · cases v with
        | arr l =>
          simp [Corpus.addDocs, hs, hda] at hok
          subst hok
          simp at hd
          rcases hd with hd | hd
          · exact ih d hd
          · simp [isDocArray, List.all_eq_true] at hda
            exact hda d hd
        | str s => simp [isDocArray] at hda
        | num n => simp [isDocArray] at hda
        | bool b => simp [isDocArray] at hda
        | undefinedVal => simp [isDocArray] at hda
        | obj fields => simp [isDocArray] at hda
      · simp [Corpus.addDocs, hs, hda] at hok
  | setAttributesStep c v out hr hok ih =>
    intro d hd
    by_cases ho : isObjectArray v = true
    · cases v with
      | arr l =>
        by_cases hl : l.length = c.nDocs
        · simp [Corpus.setAttributes, ho, hl] at hok
          subst hok
          simp only at hd
          obtain ⟨a, ha, b, _, rfl⟩ :=
            zipWith_mem (fun d a => setField d "attributes" a) c.documents l d hd
          exact isDoc_setField _ _ _ (ih a ha)
        · simp [Corpus.setAttributes, ho, hl] at hok
      | str s => simp [isObjectArray] at ho
      | num n => simp [isObjectArray] at ho
      | bool b => simp [isObjectArray] at ho
      | undefinedVal => simp [isObjectArray] at ho
      | obj fields => simp [isObjectArray] at ho
    · simp [Corpus.setAttributes, ho] at hok
  | applyStep c f hr ih =>
    intro d hd
    exact applyGo_shape f 0 c.documents ih d hd
  | mapReceiverStep c f out hr hok ih =>
    intro d hd
    rw [map_ok c f ih] at hok
    cases hok
    exact applyGo_shape f 0 c.documents ih d hd
  | mapResultStep c f out hr hok ih =>
    intro d hd
    rw [map_ok c f ih] at hok
    cases hok
    exact applyGo_shape f 0 c.documents ih d hd
  | filterResultStep c f out hr hok ih =>
    intro d hd
    rw [filter_ok c f ih] at hok
    cases hok
    have : ∀ (i : Nat) (l : List JsVal), (∀ e ∈ l, isDoc e = true) →
        ∀ e ∈ filterSpec f i l, isDoc e = true := by
      intro i l
      induction l generalizing i with
      | nil => intro _ e he; simp [filterSpec] at he
      | cons a as ihl =>
        intro hl e he
        simp only [filterSpec] at he
        by_cases ht : truthy (f (getFieldD a "text") (getFieldD a "attributes") i) = true
        · simp [ht] at he
          rcases he with he | he
          · rw [he]; exact hl a (List.mem_cons_self a as)
          · exact ihl (i + 1) (fun x hx => hl x (List.mem_cons_of_mem a hx)) e he
        · simp [ht] at he
          exact ihl (i + 1) (fun x hx => hl x (List.mem_cons_of_mem a hx)) e he
    exact this 0 c.documents ih d hd
  | removeWordsStep c ws ci hr ih =>
    intro d hd
    simp only [Corpus.removeWords, Corpus.clean] at hd
    refine applyGo_shape _ 0 _ ?_ d hd
    intro e he
    simp at he
    obtain ⟨a, ha, rfl⟩ := he
    exact isDoc_setField _ _ _ (ih a ha)

theorem isStringArray_map_str (l : List String) :
    isStringArray (.arr (l.map JsVal.str)) = true := by
  simp [isStringArray, List.all_map, Function.comp, isString]

/-!  ## The claims -/

/-- C5: `Corpus(docs)` produces the empty collection when `docs` is
omitted, a one-Document collection wrapping a single string, one Document
per element in order for an array of strings, and raises the
invalid-argument `TypeError` for any other input shape, in which case no
corpus state is produced. -/
theorem constructor_contract :
    (corpusInit none = .ok { documents := [] })
    ∧ (∀ s : String, corpusInit (some (.str s)) = .ok { documents := [docNew s] })
    ∧ (∀ l : List String,
        corpusInit (some (.arr (l.map JsVal.str))) = .ok { documents := l.map docNew })
    ∧ (∀ v : JsVal, isString v = false → isStringArray v = false →
        corpusInit (some v) = .error .invalidArgument) := by
  refine ⟨rfl, fun s => rfl, fun l => ?_, fun v h1 h2 => ?_⟩
  · simp [corpusInit, isString, isStringArray_map_str l, List.map_map, Function.comp, strVal]
  · simp [corpusInit, h1, h2]

theorem constructor_contract_witness :
    corpusInit (some (.num 3)) = .error .invalidArgument :=
  constructor_contract.2.2.2 (.num 3) rfl rfl

/-- C2 counterexample: `addDoc` on a concrete corpus and a valid string
argument succeeds but hands back `undefined`, not the receiver, so the
claim that `addDoc` returns the Corpus instance is false. -/
theorem addDoc_returns_undefined_counterexample :
    Corpus.addDoc { documents := [] } (.str "a")
      = .ok ({ documents := [docNew "a"] }, JsRet.undefined)
    ∧ JsRet.undefined ≠ JsRet.self :=
  ⟨rfl, by decide⟩

/-- C2 (amended): for every valid input, `addDoc` and `addDocs` mutate the
receiver by appending the given documents in order, but their bodies have
no `return` statement, so both return `undefined` rather than the Corpus:
they are not usable in a fluent chain. -/
theorem addDoc_addDocs_contract_amended :
    (∀ (c : Corpus) (v : JsVal) (out : Corpus × JsRet),
        c.addDoc v = .ok out → out.2 = JsRet.undefined)
    ∧ (∀ (c : Corpus) (v : JsVal) (out : Corpus × JsRet),
        c.addDocs v = .ok out → out.2 = JsRet.undefined)
    ∧ (∀ (c : Corpus) (s : String),
        c.addDoc (.str s) = .ok ({ documents := c.documents ++ [docNew s] }, JsRet.undefined))
    ∧ (∀ (c : Corpus) (l : List String),
        c.addDocs (.arr (l.map JsVal.str))
          = .ok ({ documents := c.documents ++ l.map docNew }, JsRet.undefined)) := by
  refine ⟨?_, ?_, fun c s => rfl, ?_⟩
  · intro c v out h
    by_cases hs : isString v = true
    · simp [Corpus.addDoc, hs] at h
      subst h
      rfl
    · by_cases hd : isDoc v = true
      · simp [Corpus.addDoc, hs, hd] at h
        subst h
        rfl
      · simp [Corpus.addDoc, hs, hd] at h
  · intro c v out h
    by_cases hsa : isStringArray v = true
    · cases v with
      | arr l =>
        simp [Corpus.addDocs, hsa] at h
        subst h
        rfl
      | str s => simp [isStringArray] at hsa
      | num n => simp [isStringArray] at hsa
      | bool b => simp [isStringArray] at hsa
      | undefinedVal => simp [isStringArray] at hsa
      | obj fields => simp [isStringArray] at hsa
    · by_cases hda : isDocArray v = true
      · cases v with
        | arr l =>
          simp [Corpus.addDocs, hsa, hda] at h
          subst h
          rfl
        | str s => simp [isDocArray] at hda
        | num n => simp [isDocArray] at hda
        | bool b => simp [isDocArray] at hda
        | undefinedVal => simp [isDocArray] at hda
        | obj fields => simp [isDocArray] at hda
      · simp [Corpus.addDocs, hsa, hda] at h
  · intro c l
    simp [Corpus.addDocs, isStringArray_map_str l, List.map_map, Function.comp, strVal]

theorem addDoc_addDocs_contract_amended_witness :
    (({ documents := [docNew "a"] } : Corpus), JsRet.undefined).2 = JsRet.undefined :=
  addDoc_addDocs_contract_amended.1 { documents := [] } (.str "a")
    ({ documents := [docNew "a"] }, JsRet.undefined) rfl

/-- C3: `setAttributes` is all-or-nothing.  A non-object-array argument
raises the invalid-argument `TypeError` and an object array of the wrong
length raises the length-mismatch `Error`; in both cases no mutated state
is produced (validation precedes the mutation loop in the source).  On
success every document's `attributes` is replaced positionally by the
corresponding array entry, its `text` is untouched, and the receiver
itself (`JsRet.self`) is returned. -/
theorem setAttributes_contract :
    ∀ (c : Corpus) (arr : JsVal),
      (isObjectArray arr = false → c.setAttributes arr = .error .invalidArgument)
      ∧ (∀ l : List JsVal, arr = .arr l → isObjectArray arr = true → l.length ≠ c.nDocs →
          c.setAttributes arr = .error .lengthMismatch)
      ∧ (∀ l : List JsVal, arr = .arr l → isObjectArray arr = true → l.length = c.nDocs →
          c.setAttributes arr
            = .ok ({ documents := List.zipWith (fun d a => setField d "attributes" a)
                      c.documents l }, JsRet.self))
      ∧ (∀ l : List JsVal, (∀ d ∈ c.documents, isDoc d = true) →
          ∀ (i : Nat) (hi : i < c.documents.length) (hl : i < l.length)
            (hz : i < (List.zipWith (fun d a => setField d "attributes" a) c.documents l).length),
            getFieldD ((List.zipWith (fun d a => setField d "attributes" a) c.documents l).get
                ⟨i, hz⟩) "attributes" = l.get ⟨i, hl⟩
            ∧ getFieldD ((List.zipWith (fun d a => setField d "attributes" a) c.documents l).get
                ⟨i, hz⟩) "text" = getFieldD (c.documents.get ⟨i, hi⟩) "text") := by
  intro c arr
  refine ⟨?_, ?_, ?_, ?_⟩
  · intro h
    simp [Corpus.setAttributes, h]
  · rintro l rfl ho hlen
    simp [Corpus.setAttributes, ho, hlen]
  · rintro l rfl ho hlen
    simp [Corpus.setAttributes, ho, hlen]
  · intro l h i hi hl hz
    rw [zipWith_get (fun d a => setField d "attributes" a) c.documents l i hi hl hz]
    have hobj : isObject (c.documents.get ⟨i, hi⟩) = true :=
      isObject_of_isDoc _ (h _ (c.documents.get_mem i hi))
    refine ⟨getFieldD_setField_same _ "attributes" _ hobj, ?_⟩
    exact getFieldD_setField_ne _ "attributes" "text" _ (by decide)

theorem setAttributes_contract_witness :
    (Corpus.setAttributes { documents := [docNew "a"] } (.num 5) = .error .invalidArgument)
    ∧ (Corpus.setAttributes { documents := [docNew "a"] } (.arr []) = .error .lengthMismatch)
    ∧ (Corpus.setAttributes { documents := [docNew "a"] } (.arr [.obj [("k", .num 1)]])
        = .ok ({ documents := List.zipWith (fun d a => setField d "attributes" a)
                  [docNew "a"] [.obj [("k", .num 1)]] }, JsRet.self))
    ∧ getFieldD ((List.zipWith (fun d a => setField d "attributes" a)
          [docNew "a"] [.obj [("k", .num 1)]]).get ⟨0, by decide⟩) "attributes"
        = .obj [("k", .num 1)] :=
  ⟨(setAttributes_contract { documents := [docNew "a"] } (.num 5)).1 rfl,
   (setAttributes_contract { documents := [docNew "a"] } (.arr [])).2.1 [] rfl rfl (by decide),
   (setAttributes_contract { documents := [docNew "a"] } (.arr [.obj [("k", .num 1)]])).2.2.1
     [.obj [("k", .num 1)]] rfl rfl rfl,
   ((setAttributes_contract { documents := [docNew "a"] } (.arr [.obj [("k", .num 1)]])).2.2.2
     [.obj [("k", .num 1)]] (by decide) 0 (by decide) (by decide) (by decide)).1⟩

/-- C1 counterexample: on the corpus built from the single string "a",
`map` with a callback returning "b" succeeds, and afterwards the
receiver's own document reads text "b" — its pre-existing text "a" was
overwritten.  So `map` mutates the receiver's documents, contradicting
the claim. -/
theorem map_mutates_receiver_counterexample :
    Corpus.map { documents := [docNew "a"] } (fun _ _ _ => JsVal.str "b")
      = .ok ({ documents := [JsVal.obj [("text", JsVal.str "b"), ("attributes", JsVal.obj [])]] },
             { documents := [JsVal.obj [("text", JsVal.str "b"), ("attributes", JsVal.obj [])]] })
    ∧ getFieldD (docNew "a") "text" = JsVal.str "a"
    ∧ JsVal.str "a" ≠ JsVal.str "b" := by
  refine ⟨rfl, rfl, fun h => ?_⟩
  injection h with h2
  exact absurd h2 (by decide)

/-- C1 (amended): `map` leaves the receiver's `nDocs` unchanged and
returns a new Corpus holding the transformed documents, but — because the
loop assigns `doc.text` on the receiver's own document objects before
inserting them — the receiver ends up in exactly the state `apply` would
produce: its pre-existing texts are overwritten by `f`'s results (and are
unchanged only when `f` returns the text unchanged). -/
theorem map_contract_amended :
    ∀ (c : Corpus) (f : JsVal → JsVal → Nat → JsVal),
      (∀ d ∈ c.documents, isDoc d = true) →
      c.map f = .ok (c.apply f, c.apply f)
      ∧ (c.apply f).nDocs = c.nDocs := by
  intro c f h
  exact ⟨map_ok c f h, by simp [Corpus.apply, Corpus.nDocs, applyGo_length]⟩

theorem map_contract_amended_witness :
    Corpus.map { documents := [docNew "a"] } (fun _ _ _ => JsVal.str "b")
      = .ok (Corpus.apply { documents := [docNew "a"] } (fun _ _ _ => JsVal.str "b"),
             Corpus.apply { documents := [docNew "a"] } (fun _ _ _ => JsVal.str "b"))
    ∧ (Corpus.apply { documents := [docNew "a"] } (fun _ _ _ => JsVal.str "b")).nDocs
        = Corpus.nDocs { documents := [docNew "a"] } :=
  map_contract_amended { documents := [docNew "a"] } (fun _ _ _ => JsVal.str "b") (by decide)

/-- C4 counterexample: the duck-typed `addDoc` accepts any object with
both keys, so the corpus state holding a document whose `text` is the
number 1 and whose `attributes` is an array is reachable — the claimed
"text is textual, attributes is a mapping" invariant fails. -/
theorem document_invariant_counterexample :
    Reach { documents := [JsVal.obj [("text", JsVal.num 1), ("attributes", JsVal.arr [])]] }
    ∧ isString (getFieldD (JsVal.obj [("text", JsVal.num 1), ("attributes", JsVal.arr [])])
        "text") = false
    ∧ isObject (getFieldD (JsVal.obj [("text", JsVal.num 1), ("attributes", JsVal.arr [])])
        "attributes") = false := by
  refine ⟨?_, rfl, rfl⟩
  exact Reach.addDocStep { documents := [] }
    (JsVal.obj [("text", JsVal.num 1), ("attributes", JsVal.arr [])])
    ({ documents := [JsVal.obj [("text", JsVal.num 1), ("attributes", JsVal.arr [])]] },
      JsRet.undefined)
    (Reach.initStep none { documents := [] } rfl) rfl

/-- C4 (amended): in every reachable corpus state — after any sequence of
constructor, `addDoc`, `addDocs`, `setAttributes`, `apply`, `map`,
`filter`, `removeWords` and the `apply`-based normalizations — every
element of `documents` satisfies the duck-typed Document shape (it is an
object carrying both a `text` and an `attributes` key); but the stronger
typing of the two fields is not invariant, because `addDoc`/`addDocs`
never inspect the field values. -/
theorem document_shape_invariant :
    ∀ c : Corpus, Reach c → ∀ d ∈ c.documents, isDoc d = true :=
  reach_shape

theorem document_shape_invariant_witness :
    isDoc (docNew "a") = true :=
  document_shape_invariant { documents := [docNew "a"] }
    (Reach.initStep (some (.str "a")) { documents := [docNew "a"] } rfl)
    (docNew "a") (List.mem_cons_self _ _)

/-- C6: `filter` returns, next to the untouched receiver state, a fresh
Corpus holding exactly the documents whose `fn( text, attributes, index )`
value was truthy, in their original relative order (`filterSpec` is the
order-preserving selection the spec describes); the receiver — its
`nDocs` and every document — passes through unchanged. -/
theorem filter_contract :
    ∀ (c : Corpus) (f : JsVal → JsVal → Nat → JsVal),
      (∀ d ∈ c.documents, isDoc d = true) →
      c.filter f = .ok (c, { documents := filterSpec f 0 c.documents }) :=
  filter_ok

theorem filter_contract_witness :
    Corpus.filter { documents := [docNew "d0", docNew "d1", docNew "d2", docNew "d3"] }
        (fun _ _ i => JsVal.bool (i == 0 || i == 2))
      = .ok ({ documents := [docNew "d0", docNew "d1", docNew "d2", docNew "d3"] },
             { documents := filterSpec (fun _ _ i => JsVal.bool (i == 0 || i == 2)) 0
                 [docNew "d0", docNew "d1", docNew "d2", docNew "d3"] })
    ∧ filterSpec (fun _ _ i => JsVal.bool (i == 0 || i == 2)) 0
        [docNew "d0", docNew "d1", docNew "d2", docNew "d3"]
      = [docNew "d0", docNew "d2"] :=
  ⟨filter_contract { documents := [docNew "d0", docNew "d1", docNew "d2", docNew "d3"] }
      (fun _ _ i => JsVal.bool (i == 0 || i == 2)) (by decide),
   rfl⟩

/-- C7: `apply` with the identity callback returns the corpus state
completely unchanged — every document's text bit-for-bit identical — and
in particular `nDocs` is unchanged.  (The hypothesis that each document
carries a `text` key holds in every reachable state; without it the
JavaScript assignment `doc.text = doc.text` would itself create the
property.) -/
theorem apply_identity_contract :
    ∀ c : Corpus, (∀ d ∈ c.documents, hasField d "text" = true) →
      c.apply (fun t _ _ => t) = c
      ∧ (c.apply (fun t _ _ => t)).nDocs = c.nDocs := by
  intro c h
  have he : c.apply (fun t _ _ => t) = c := by
    show Corpus.mk (applyGo (fun t _ _ => t) 0 c.documents) = c
    rw [applyGo_id 0 c.documents h]
  exact ⟨he, by rw [he]⟩

theorem apply_identity_contract_witness :
    Corpus.apply { documents := [docNew "hello world"] } (fun t _ _ => t)
      = { documents := [docNew "hello world"] }
    ∧ (Corpus.apply { documents := [docNew "hello world"] } (fun t _ _ => t)).nDocs
      = Corpus.nDocs { documents := [docNew "hello world"] } :=
  apply_identity_contract { documents := [docNew "hello world"] } (by decide)

/-- C9: `apply` never changes the number of documents and never changes
any document's `attributes` value (the callback receives it read-only and
only the `text` field is assigned); consequently each built-in
normalization — `clean`, `trim`, `toLower`, `toUpper`, `stem`,
`removeInterpunctuation`, `removeNewlines`, `removeDigits`,
`removeInvalidCharacters`, all of which are `apply` at a fixed callback —
modifies only the text fields of documents. -/
theorem apply_frame_contract :
    ∀ (c : Corpus) (f : JsVal → JsVal → Nat → JsVal),
      ((c.apply f).nDocs = c.nDocs
        ∧ (c.apply f).documents.map (fun d => getFieldD d "attributes")
            = c.documents.map (fun d => getFieldD d "attributes"))
      ∧ (c.clean.nDocs = c.nDocs
        ∧ c.clean.documents.map (fun d => getFieldD d "attributes")
            = c.documents.map (fun d => getFieldD d "attributes"))
      ∧ (c.trim.nDocs = c.nDocs
        ∧ c.trim.documents.map (fun d => getFieldD d "attributes")
            = c.documents.map (fun d => getFieldD d "attributes"))
      ∧ (c.toLower.nDocs = c.nDocs
        ∧ c.toLower.documents.map (fun d => getFieldD d "attributes")
            = c.documents.map (fun d => getFieldD d "attributes"))
      ∧ (c.toUpper.nDocs = c.nDocs
        ∧ c.toUpper.documents.map (fun d => getFieldD d "attributes")
            = c.documents.map (fun d => getFieldD d "attributes"))
      ∧ (∀ (ls ps : String → String) (ty : Option String),
          (c.stem ls ps ty).nDocs = c.nDocs
          ∧ (c.stem ls ps ty).documents.map (fun d => getFieldD d "attributes")
              = c.documents.map (fun d => getFieldD d "attributes"))
      ∧ (c.removeInterpunctuation.nDocs = c.nDocs
        ∧ c.removeInterpunctuation.documents.map (fun d => getFieldD d "attributes")
            = c.documents.map (fun d => getFieldD d "attributes"))
      ∧ (c.removeNewlines.nDocs = c.nDocs
        ∧ c.removeNewlines.documents.map (fun d => getFieldD d "attributes")
            = c.documents.map (fun d => getFieldD d "attributes"))
      ∧ (c.removeDigits.nDocs = c.nDocs
        ∧ c.removeDigits.documents.map (fun d => getFieldD d "attributes")
            = c.documents.map (fun d => getFieldD d "attributes"))
      ∧ (c.removeInvalidCharacters.nDocs = c.nDocs
        ∧ c.removeInvalidCharacters.documents.map (fun d => getFieldD d "attributes")
            = c.documents.map (fun d => getFieldD d "attributes")) := by
  intro c f
  have key : ∀ g : JsVal → JsVal → Nat → JsVal,
      (c.apply g).nDocs = c.nDocs
      ∧ (c.apply g).documents.map (fun d => getFieldD d "attributes")
          = c.documents.map (fun d => getFieldD d "attributes") := by
    intro g
    exact ⟨by simp [Corpus.apply, Corpus.nDocs, applyGo_length],
           applyGo_attrs g 0 c.documents⟩
  exact ⟨key f, key _, key _, key _, key _, fun ls ps ty => key _,
         key _, key _, key _, key _⟩

/-- C8: on the corpus holding the single document "The quick fox jumps",
`removeWords( ["quick"], false )` followed by `clean()` yields exactly
"The fox jumps".  The companion equations exhibit the general behaviour
on the word-boundary matcher the code builds: only whole-word,
boundary-delimited occurrences are removed ("quickly" and "aquick"
survive), matching is case-sensitive when the flag is falsy ("Quick"
survives a lowercase pattern) and case-insensitive when it is truthy, and
the subsequent whitespace-clean collapses the gaps the removals leave. -/
theorem removeWords_example_contract :
    (Corpus.clean (Corpus.removeWords { documents := [docNew "The quick fox jumps"] }
        ["quick"] false)).documents
      = [JsVal.obj [("text", JsVal.str "The fox jumps"), ("attributes", JsVal.obj [])]]
    ∧ removeWordStr false "The quick fox jumps" "quick" = "The  fox jumps"
    ∧ cleanStr "The  fox jumps" = "The fox jumps"
    ∧ removeWordStr false "quickly quick aquick quick" "quick" = "quickly  aquick "
    ∧ removeWordStr false "Quick brown" "quick" = "Quick brown"
    ∧ removeWordStr true "Quick brown QUICK" "quick" = " brown " :=
  ⟨rfl, rfl, rfl, rfl, rfl, rfl⟩

/-- C10: `removeWords` with an empty word list is not the identity: the
word-removal loop does nothing, but the method still unconditionally runs
the whitespace-clean normalization, so it equals `clean` — which collapses
whitespace runs to single spaces and trims, as the concrete document
"  The   fox  " (rewritten to "The fox") shows. -/
theorem removeWords_empty_contract :
    (∀ (c : Corpus) (ci : Bool), (∀ d ∈ c.documents, hasField d "text" = true) →
        c.removeWords [] ci = c.clean)
    ∧ Corpus.removeWords { documents := [docNew "  The   fox  "] } [] false
        = { documents := [JsVal.obj [("text", JsVal.str "The fox"),
              ("attributes", JsVal.obj [])]] }
    ∧ ("  The   fox  " : String) ≠ "The fox" := by
  refine ⟨?_, rfl, by decide⟩
  intro c ci h
  have hc : c.documents.map (fun d => setField d "text"
      (List.foldl (fun t w => strMap (fun s => removeWordStr ci s w) t)
        (getFieldD d "text") [])) = c.documents := by
    refine map_id_of_mem _ c.documents ?_
    intro d hd
    exact setField_getFieldD_self d "text" (h d hd)
  show Corpus.clean { documents := c.documents.map (fun d => setField d "text"
      (List.foldl (fun t w => strMap (fun s => removeWordStr ci s w) t)
        (getFieldD d "text") [])) } = c.clean
  rw [hc]

theorem removeWords_empty_contract_witness :
    Corpus.removeWords { documents := [docNew "a  b"] } [] true
      = Corpus.clean { documents := [docNew "a  b"] } :=
  removeWords_empty_contract.1 { documents := [docNew "a  b"] } true (by decide)
